import Mathlib

/-!
Verification of the retrieval-gated answer pipeline and its moderation
feedback loop (spec.md sections 3 to 4.6, 8), against a shallow embedding of
the repository's Python source:

* `app/services/rag.py` (confidence gate inside `query`),
* `app/config.py` (`Settings`),
* `app/embeddings/embedding.py` (`Embedder`),
* `app/services/llm.py` (`ask_llm`),
* `app/storage/log_store.py` (conversation log),
* `app/vector/chroma_store.py` (`add_docs`),
* `app/services/feedback.py` (`add_feedback_qa`).

Modelling conventions, used throughout:

* Python `float` values are modelled exactly: threshold and weight literals
  become rationals (for the gate) or elements of an arbitrary
  `LinearOrderedField` (for the embedding fallback, whose `** 0.5` square
  root is an abstract function parameter `sq`).  Stated properties are about
  comparisons and zero/non-zero structure and are insensitive to rounding.
* Python strings are Lean `String`s (one `Char` per code point, matching
  Python's `len`, slicing and `in`).
* Network and model calls (OpenAI embeddings/chat, the HF sentence
  transformer, uuid generation) are oracle parameters; `none` models a call
  whose retries are exhausted or whose library raised.
* Python dict-backed records become structures; `x or default` truthiness on
  strings and lists is modelled by explicit `isEmpty` tests.
-/

/-- One retrieved nearest-neighbour hit, as produced by
`ChromaStore.query` (`{"content": ..., "metadata": ..., "distance": ...}`).
Metadata is the flat string map Chroma stores. -/
structure Hit where
  content : String
  metadata : List (String × String)
  distance : ℚ
deriving DecidableEq

/-- The gate-relevant configuration from `app/config.py` `Settings`.
Defaults mirror `MAX_DISTANCE_TO_ANSWER = 0.65`,
`MIN_CONFIDENCE_TO_ANSWER = 0.35` and `ALLOWED_KEYWORDS`. -/
structure GateSettings where
  MAX_DISTANCE_TO_ANSWER : ℚ
  MIN_CONFIDENCE_TO_ANSWER : ℚ
  ALLOWED_KEYWORDS : List String

/-- `Settings` with the environment-variable defaults of `app/config.py`. -/
def settingsDefault : GateSettings :=
  { MAX_DISTANCE_TO_ANSWER := 13 / 20
    MIN_CONFIDENCE_TO_ANSWER := 7 / 20
    ALLOWED_KEYWORDS :=
      ["태양광", "패널", "폐패널", "EPR", "재활용", "수거", "인버터",
       "모듈", "설치", "교체", "철거", "발전소", "태양열", "오염", "파손", "성능", "예측", "수명"] }

/-- `rag._score`: `max(0.0, 1.0 - float(dist))`. -/
def score (dist : ℚ) : ℚ := max 0 (1 - dist)

/-- Python's substring test `kw in pool`, on the underlying character
lists: `kw` occurs contiguously in `pool`. -/
def strContainsAux (p : List Char) : List Char → Bool
  | [] => p.isEmpty
  | c :: cs => p.isPrefixOf (c :: cs) || strContainsAux p cs

/-- `kw in pool` for strings. -/
def strContains (pool kw : String) : Bool := strContainsAux kw.toList pool.toList

/-- `rag._contains_domain_terms`: the question joined (space-separated) with
every retrieved `content` must contain some allowed keyword. -/
def containsDomainTerms (st : GateSettings) (question : String) (retrieved : List Hit) : Bool :=
  let pool := question ++ " " ++ String.intercalate " " (retrieved.map (fun d => d.content))
  st.ALLOWED_KEYWORDS.any (fun k => strContains pool k)

/-- The three gate outputs computed inside `rag.query`. -/
structure GateResult where
  status : String
  conf : ℚ
  topd : ℚ
deriving DecidableEq

/-- The confidence gate of `rag.query` (lines 40-62): `top_dist, conf`
start at `1.0, 0.0`, are updated from `hits[0]` when hits exist, and
`status` is `"ANSWERABLE"` exactly when all four conditions hold. -/
def gate (st : GateSettings) (question : String) (hits : List Hit) : GateResult :=
  let topd : ℚ := match hits with
    | [] => 1
    | h :: _ => h.distance
  let conf : ℚ := match hits with
    | [] => 0
    | _ :: _ => score topd
  let domain_ok := containsDomainTerms st question hits
  let is_answerable := !hits.isEmpty
      && decide (topd ≤ st.MAX_DISTANCE_TO_ANSWER)
      && decide (st.MIN_CONFIDENCE_TO_ANSWER ≤ conf)
      && domain_ok
  { status := if is_answerable then "ANSWERABLE" else "ESCALATE_TO_BOARD"
    conf := conf
    topd := topd }

/-- Claim C1: the confidence gate computed inside `query` satisfies: on an
empty retrieved list it yields `top_distance = 1`, `confidence_score = 0`
and status `ESCALATE_TO_BOARD`; otherwise `top_distance` is the first hit's
distance and `confidence_score = max 0 (1 - top_distance)`; status is
`ANSWERABLE` iff the list is non-empty, `top_distance` is at most
`MAX_DISTANCE_TO_ANSWER`, `confidence_score` is at least
`MIN_CONFIDENCE_TO_ANSWER`, and the domain-keyword check passes; in every
other case the status is `ESCALATE_TO_BOARD`; the configured defaults are
0.65 and 0.35. -/
theorem gate_spec (st : GateSettings) (q : String) (hits : List Hit) :
    (hits = [] → gate st q hits = { status := "ESCALATE_TO_BOARD", conf := 0, topd := 1 }) ∧
    (∀ h rest, hits = h :: rest →
      (gate st q hits).topd = h.distance ∧ (gate st q hits).conf = max 0 (1 - h.distance)) ∧
    ((gate st q hits).status = "ANSWERABLE" ↔
      hits ≠ [] ∧ (gate st q hits).topd ≤ st.MAX_DISTANCE_TO_ANSWER ∧
        st.MIN_CONFIDENCE_TO_ANSWER ≤ (gate st q hits).conf ∧
        containsDomainTerms st q hits = true) ∧
    ((gate st q hits).status = "ANSWERABLE" ∨ (gate st q hits).status = "ESCALATE_TO_BOARD") ∧
    settingsDefault.MAX_DISTANCE_TO_ANSWER = 13 / 20 ∧
    settingsDefault.MIN_CONFIDENCE_TO_ANSWER = 7 / 20 := by
  refine ⟨?_, ?_, ?_, ?_, rfl, rfl⟩
  · rintro rfl; rfl
  · rintro h rest rfl
    exact ⟨rfl, rfl⟩
  · cases hits with
    | nil =>
        simp [gate]
    | cons h rest =>
        simp only [gate, score]
        by_cases h1 : h.distance ≤ st.MAX_DISTANCE_TO_ANSWER <;>
          by_cases h2 : st.MIN_CONFIDENCE_TO_ANSWER ≤ max 0 (1 - h.distance) <;>
          by_cases h3 : containsDomainTerms st q (h :: rest) = true <;>
          simp [h1, h2, h3]
  · cases hits with
    | nil => right; rfl
    | cons h rest =>
        simp only [gate]
        split
        · left; rfl
        · right; rfl

/-! ## Conversation log (`app/storage/log_store.py`)

A log state is the JSON array the store keeps in `LOG_FILE`; each entry is
the dict built by `insert_log`.  `answer`, `draft_answer` and `answered_at`
are nullable; statuses are the raw strings the source compares against. -/

/-- One entry of the conversation log, as written by `insert_log`. -/
structure LogEntry where
  id : Int
  question : String
  answer : Option String
  draft_answer : Option String
  approval_status : String
  confidence_status : String
  confidence_score : ℚ
  top_distance : ℚ
  retrieved : List Hit
  asked_at : String
  answered_at : Option String
deriving DecidableEq

/-- `log_store._next_id`: `max(ids) + 1` on a non-empty log, else `1`. -/
def nextId : List LogEntry → Int
  | [] => 1
  | e :: es => (es.foldl (fun m x => max m x.id) e.id) + 1

/-- `log_store.insert_log`: append a fresh entry (with `answer = None` and
`approval_status` derived from the confidence status) and return its id. -/
def insertLog (question confidence_status : String) (confidence_score top_distance : ℚ)
    (draft_answer : Option String) (retrieved : List Hit)
    (asked_at : String) (answered_at : Option String)
    (items : List LogEntry) : Int × List LogEntry :=
  let lid := nextId items
  (lid, items ++
    [{ id := lid
       question := question
       answer := none
       draft_answer := draft_answer
       approval_status := if confidence_status == "ESCALATE_TO_BOARD" then "PENDING" else "N/A"
       confidence_status := confidence_status
       confidence_score := confidence_score
       top_distance := top_distance
       retrieved := retrieved
       asked_at := asked_at
       answered_at := answered_at }])

/-- The source's `for it in items: if it["id"] == log_id: mutate; break`
pattern: rewrite the first entry satisfying `p`, leave all else unchanged. -/
def updateFirst (p : LogEntry → Bool) (f : LogEntry → LogEntry) : List LogEntry → List LogEntry
  | [] => []
  | x :: xs => if p x then f x :: xs else x :: updateFirst p f xs

/-- `log_store.set_draft`. -/
def setDraft (log_id : Int) (draft_answer : Option String) (items : List LogEntry) : List LogEntry :=
  updateFirst (fun e => e.id == log_id) (fun e => { e with draft_answer := draft_answer }) items

/-- `log_store.update_answer`. -/
def updateAnswer (log_id : Int) (answer : String) (answered_at : String)
    (items : List LogEntry) : List LogEntry :=
  updateFirst (fun e => e.id == log_id)
    (fun e => { e with answer := some answer, answered_at := some answered_at }) items

/-- `log_store.set_approval`. -/
def setApproval (log_id : Int) (status : String) (items : List LogEntry) : List LogEntry :=
  updateFirst (fun e => e.id == log_id) (fun e => { e with approval_status := status }) items

/-- Python truthiness of the nullable `answer` string: `None` and `""` are
falsy. -/
def truthy : Option String → Bool
  | none => false
  | some s => !s.isEmpty

/-- The filter applied by the loop in `public_logs`: skip `PENDING`, keep an
entry iff it is `ANSWERABLE` or has a truthy answer with a settled approval
status. -/
def publicFilter (e : LogEntry) : Bool :=
  if e.approval_status == "PENDING" then false
  else e.confidence_status == "ANSWERABLE"
    || (truthy e.answer
        && (e.approval_status == "APPROVED" || e.approval_status == "REJECTED"
            || e.approval_status == "N/A"))

/-- One iteration of the accumulation loop in `public_logs`: `continue` on
`PENDING`, else append when the disjunction holds. -/
def publicStep (out : List LogEntry) (it : LogEntry) : List LogEntry :=
  if it.approval_status == "PENDING" then out
  else if it.confidence_status == "ANSWERABLE"
      || (truthy it.answer
          && (it.approval_status == "APPROVED" || it.approval_status == "REJECTED"
              || it.approval_status == "N/A")) then out ++ [it]
  else out

/-- The accumulation loop of `public_logs` (`out = []; for it in items: ...`). -/
def publicLoop (items : List LogEntry) : List LogEntry :=
  items.foldl publicStep []

/-- Stable insertion into a list sorted by descending id, modelling
`list.sort(key=lambda x: x.get("id", 0), reverse=True)`. -/
def insertDesc (e : LogEntry) : List LogEntry → List LogEntry
  | [] => [e]
  | x :: xs => if x.id ≤ e.id then e :: x :: xs else x :: insertDesc e xs

/-- Sort by descending id (stable). -/
def sortByIdDesc : List LogEntry → List LogEntry
  | [] => []
  | x :: xs => insertDesc x (sortByIdDesc xs)

/-- `log_store.public_logs`: filter, sort by id descending, truncate to `n`. -/
def publicLogs (n : Nat) (items : List LogEntry) : List LogEntry :=
  (sortByIdDesc (publicLoop items)).take n

theorem mem_insertDesc (a e : LogEntry) (l : List LogEntry) :
    a ∈ insertDesc e l ↔ a = e ∨ a ∈ l := by
  induction l with
  | nil => simp [insertDesc]
  | cons x xs ih =>
      simp only [insertDesc]
      split
      · simp
      · simp only [List.mem_cons, ih]
        tauto

theorem mem_sortByIdDesc (a : LogEntry) (l : List LogEntry) :
    a ∈ sortByIdDesc l ↔ a ∈ l := by
  induction l with
  | nil => simp [sortByIdDesc]
  | cons x xs ih => simp [sortByIdDesc, mem_insertDesc, ih]

theorem pairwise_insertDesc (e : LogEntry) (l : List LogEntry)
    (h : l.Pairwise (fun a b => b.id ≤ a.id)) :
    (insertDesc e l).Pairwise (fun a b => b.id ≤ a.id) := by
  induction l with
  | nil => simp [insertDesc]
  | cons x xs ih =>
      simp only [insertDesc]
      rcases List.pairwise_cons.mp h with ⟨hx, hxs⟩
      split
      · rename_i hle
        refine List.pairwise_cons.mpr ⟨?_, h⟩
        intro b hb
        rcases List.mem_cons.mp hb with rfl | hb
        · exact hle
        · exact le_trans (hx b hb) hle
      · rename_i hgt
        refine List.pairwise_cons.mpr ⟨?_, ih hxs⟩
        intro b hb
        rcases (mem_insertDesc b e xs).mp hb with rfl | hb
        · exact le_of_not_le hgt
        · exact hx b hb

theorem pairwise_sortByIdDesc (l : List LogEntry) :
    (sortByIdDesc l).Pairwise (fun a b => b.id ≤ a.id) := by
  induction l with
  | nil => simp [sortByIdDesc]
  | cons x xs ih => exact pairwise_insertDesc x _ ih

theorem publicStep_eq (out : List LogEntry) (it : LogEntry) :
    publicStep out it = if publicFilter it then out ++ [it] else out := by
  unfold publicStep publicFilter
  by_cases hp : (it.approval_status == "PENDING") = true
  · simp [hp]
  · have hp' : (it.approval_status == "PENDING") = false := by simpa using hp
    by_cases hc : (it.confidence_status == "ANSWERABLE"
        || (truthy it.answer
            && (it.approval_status == "APPROVED" || it.approval_status == "REJECTED"
                || it.approval_status == "N/A"))) = true
    · simp [hp', hc]
    · have hc' : (it.confidence_status == "ANSWERABLE"
          || (truthy it.answer
              && (it.approval_status == "APPROVED" || it.approval_status == "REJECTED"
                  || it.approval_status == "N/A"))) = false := by simpa using hc
      simp [hp', hc']

theorem publicLoop_eq_filter (items : List LogEntry) :
    publicLoop items = items.filter publicFilter := by
  suffices h : ∀ acc, items.foldl publicStep acc = acc ++ items.filter publicFilter by
    simpa [publicLoop] using h []
  induction items with
  | nil => simp
  | cons x xs ih =>
      intro acc
      rw [List.foldl_cons, publicStep_eq, List.filter_cons]
      by_cases hf : publicFilter x = true
      · simp [hf, ih]
      · have hf' : publicFilter x = false := by simpa using hf
        simp [hf', ih]

theorem mem_publicLogs (n : Nat) (items : List LogEntry) (e : LogEntry)
    (h : e ∈ publicLogs n items) : publicFilter e = true := by
  have h1 : e ∈ sortByIdDesc (publicLoop items) := List.take_subset n _ h
  have h2 : e ∈ publicLoop items := (mem_sortByIdDesc e _).mp h1
  rw [publicLoop_eq_filter] at h2
  exact (List.mem_filter.mp h2).2

theorem le_foldl_max_init (xs : List LogEntry) (a : Int) :
    a ≤ xs.foldl (fun m x => max m x.id) a := by
  induction xs generalizing a with
  | nil => exact le_refl a
  | cons x xs ih => exact le_trans (le_max_left a x.id) (ih (max a x.id))

theorem mem_le_foldl_max (e : LogEntry) : ∀ (xs : List LogEntry), e ∈ xs →
    ∀ a : Int, e.id ≤ xs.foldl (fun m x => max m x.id) a := by
  intro xs
  induction xs with
  | nil => intro h; cases h
  | cons x xs ih =>
      intro he a
      rcases List.mem_cons.mp he with rfl | he
      · exact le_trans (le_max_right a e.id) (le_foldl_max_init xs _)
      · exact ih he (max a x.id)

theorem id_lt_nextId (items : List LogEntry) (e : LogEntry) (he : e ∈ items) :
    e.id < nextId items := by
  cases items with
  | nil => cases he
  | cons x xs =>
      have : e.id ≤ xs.foldl (fun m y => max m y.id) x.id := by
        rcases List.mem_cons.mp he with rfl | he
        · exact le_foldl_max_init xs e.id
        · exact mem_le_foldl_max e xs he x.id
      simpa [nextId] using Int.lt_add_one_of_le this

/-- Claim C7: `insert_log` assigns `id = nextId items` (which is 1 on an
empty log), appends exactly one entry carrying the given question, metrics
and timestamps with `answer = none`, with `approval_status` equal to
`PENDING` when the confidence status is `ESCALATE_TO_BOARD` and `N/A`
otherwise, returns that id, and the id is strictly greater than every
pre-existing id. -/
theorem insertLog_spec (question confidence_status : String)
    (confidence_score top_distance : ℚ) (draft_answer : Option String)
    (retrieved : List Hit) (asked_at : String) (answered_at : Option String)
    (items : List LogEntry) :
    (insertLog question confidence_status confidence_score top_distance draft_answer
        retrieved asked_at answered_at items).1 = nextId items ∧
    (insertLog question confidence_status confidence_score top_distance draft_answer
        retrieved asked_at answered_at items).2 = items ++
      [{ id := nextId items
         question := question
         answer := none
         draft_answer := draft_answer
         approval_status :=
           if confidence_status == "ESCALATE_TO_BOARD" then "PENDING" else "N/A"
         confidence_status := confidence_status
         confidence_score := confidence_score
         top_distance := top_distance
         retrieved := retrieved
         asked_at := asked_at
         answered_at := answered_at }] ∧
    (items = [] → (insertLog question confidence_status confidence_score top_distance
        draft_answer retrieved asked_at answered_at items).1 = 1) ∧
    (∀ e ∈ items, e.id < (insertLog question confidence_status confidence_score top_distance
        draft_answer retrieved asked_at answered_at items).1) := by
  refine ⟨rfl, rfl, ?_, ?_⟩
  · rintro rfl; rfl
  · intro e he
    exact id_lt_nextId items e he

/-- Claim C6: `public_logs` never returns an entry whose approval status is
`PENDING`, for every log state and every `n`. -/
theorem publicLogs_no_pending (n : Nat) (items : List LogEntry) :
    (publicLogs n items).all (fun e => !(e.approval_status == "PENDING")) = true := by
  rw [List.all_eq_true]
  intro e he
  have hf := mem_publicLogs n items e he
  by_cases hp : (e.approval_status == "PENDING") = true
  · rw [publicFilter, if_pos hp] at hf
    cases hf
  · simpa using hp

/-- Claim C5 (amended): `public_logs n` returns, sorted by descending id and
truncated to `n`, exactly the entries passing the source's filter: approval
status not `PENDING`, and (`confidence_status == "ANSWERABLE"` or a truthy
answer together with approval status in {APPROVED, REJECTED, N/A}).  An
`ANSWERABLE` entry is returned even when its answer is absent. -/
theorem publicLogs_spec (n : Nat) (items : List LogEntry) :
    publicLogs n items = (sortByIdDesc (items.filter publicFilter)).take n ∧
    (∀ e ∈ publicLogs n items, publicFilter e = true) ∧
    (publicLogs n items).Pairwise (fun a b => b.id ≤ a.id) ∧
    (publicLogs n items).length ≤ n := by
  refine ⟨?_, ?_, ?_, ?_⟩
  · rw [publicLogs, publicLoop_eq_filter]
  · intro e he
    exact mem_publicLogs n items e he
  · exact (pairwise_sortByIdDesc _).sublist (List.take_prefix n _).sublist
  · rw [publicLogs, List.length_take]
    exact min_le_left n _

/-- A concrete log entry that is `ANSWERABLE` but has no answer at all:
the state `insert_log` itself leaves behind before `update_answer` runs. -/
def answerlessEntry : LogEntry :=
  { id := 1
    question := "패널 질문"
    answer := none
    draft_answer := none
    approval_status := "N/A"
    confidence_status := "ANSWERABLE"
    confidence_score := 0
    top_distance := 0
    retrieved := []
    asked_at := "t"
    answered_at := none }

/-- Claim C5 counterexample: on the one-entry log `[answerlessEntry]`,
`public_logs` returns the entry although its answer is `none`, refuting
"no entry lacking an answer is returned". -/
theorem publicLogs_returns_answerless :
    publicLogs 50 [answerlessEntry] = [answerlessEntry] ∧ answerlessEntry.answer = none :=
  ⟨rfl, rfl⟩

/-! ## Embedding provider adapter (`app/embeddings/embedding.py`)

Vectors live in an arbitrary linear ordered field `F`; the square root
`** 0.5` used for normalisation is an abstract parameter `sq : F → F`
(instantiating `F := ℝ`, `sq := Real.sqrt` recovers the numeric reading).
The OpenAI and HF providers are oracles returning `Option`: `some vs` is a
successful call, `none` a call whose retries were exhausted or whose
library/model is unavailable. -/

/-- The character class of the keyword regex `[가-힣a-zA-Z0-9]+`. -/
def isWordChar (c : Char) : Bool :=
  ('가' ≤ c && c ≤ '힣') || ('a' ≤ c && c ≤ 'z') || ('A' ≤ c && c ≤ 'Z')
    || ('0' ≤ c && c ≤ '9')

/-- `re.findall(r'[가-힣a-zA-Z0-9]+', ...)`: the maximal runs of word
characters, in order.  Implemented as a right fold carrying the run that
continues to the right of the current character. -/
def tokenize (cs : List Char) : List String :=
  let st := cs.foldr
    (fun c st =>
      if isWordChar c then (c :: st.1, st.2)
      else ([], if st.1.isEmpty then st.2 else String.mk st.1 :: st.2))
    ([], [])
  if st.1.isEmpty then st.2 else String.mk st.1 :: st.2

/-- The `domain_keywords` list of `Embedder._extract_keywords`. -/
def fallbackDomainKeywords : List String :=
  ["태양광", "패널", "성능", "예측", "수명", "오염", "파손", "교체", "수리"]

/-- `Embedder._extract_keywords`: lowercase, take the word-character runs,
drop tokens shorter than 2, and append each domain keyword a second time
(the weighting duplication of the source).  Lowercasing is `Char.toLower`
per character (ASCII; identical to Python on the Korean/ASCII inputs in
scope). -/
def extractKeywords (text : String) : List String :=
  let words := tokenize (text.toList.map Char.toLower)
  let keywords := words.filter (fun w => 2 ≤ w.length)
  keywords.flatMap (fun w => if fallbackDomainKeywords.contains w then [w, w] else [w])

/-- Code-point lexicographic order on character lists: Python's `<` on
strings. -/
def lexLt : List Char → List Char → Bool
  | _, [] => false
  | [], _ :: _ => true
  | a :: as, b :: bs =>
      if a.toNat < b.toNat then true
      else if b.toNat < a.toNat then false
      else lexLt as bs

/-- Python's `a < b` on strings. -/
def strLt (a b : String) : Bool := lexLt a.toList b.toList

/-- Strict insertion into a sorted list of strings (Python's `sorted`
on the distinct members of a set). -/
def insertStr (w : String) : List String → List String
  | [] => [w]
  | x :: xs => if strLt w x then w :: x :: xs else x :: insertStr w xs

/-- Sort strings ascending, as `sorted(list(all_keywords))`. -/
def sortStrings : List String → List String
  | [] => []
  | x :: xs => insertStr x (sortStrings xs)

/-- The batch vocabulary of `_embed_semantic_fallback`:
`sorted(list(set of all keywords of all texts)))`. -/
def vocabOf (texts : List String) : List String :=
  sortStrings ((texts.flatMap extractKeywords).eraseDups)

/-- Python's non-overlapping `str.count` on character lists (pattern
assumed non-empty; the top-level wrapper handles `""`). -/
def countSubAux (p : List Char) : List Char → Nat
  | [] => 0
  | c :: cs =>
      if p.isPrefixOf (c :: cs) then 1 + countSubAux p (cs.drop (p.length - 1))
      else countSubAux p cs
termination_by l => l.length
decreasing_by
  · simp only [List.length_cons]
    have := List.length_drop (p.length - 1) cs
    omega
  · simp [List.length_cons]

/-- `text.count(pat)` (Python's substring count). -/
def countSub (pat text : String) : Nat :=
  if pat.isEmpty then text.length + 1 else countSubAux pat.toList text.toList

/-- The un-normalised feature vector one text receives inside
`_embed_semantic_fallback`: a zero vector of size `vocabSize`, TF weights
`count * 0.1` at the sorted-vocabulary positions, then the five length /
question-mark / domain-keyword features written over positions
`vocabSize - 10 .. vocabSize - 6` (when the vector is longer than 10). -/
def rawVec {F : Type} [LinearOrderedField F] (kwList : List String) (vocabSize : Nat)
    (text : String) : List F :=
  let kws := extractKeywords text
  let base : List F := (List.range vocabSize).map (fun i =>
    match kwList[i]? with
    | some w => if kws.contains w then ((kws.count w : ℕ) : F) * (1 / 10) else 0
    | none => 0)
  if 10 < vocabSize then
    ((((base.set (vocabSize - 10) (((text.length : ℕ) : F) / 1000)).set
        (vocabSize - 9) (((countSub "?" text : ℕ) : F) * (5 / 10))).set
        (vocabSize - 8) (((countSub "패널" text : ℕ) : F) * (3 / 10))).set
        (vocabSize - 7) (((countSub "태양광" text : ℕ) : F) * (3 / 10))).set
        (vocabSize - 6) (((countSub "성능" text : ℕ) : F) * (2 / 10))
  else base

/-- `sum(x * x for x in vector) ** 0.5`. -/
def normOf {F : Type} [LinearOrderedField F] (sq : F → F) (v : List F) : F :=
  sq ((v.map (fun x => x * x)).sum)

/-- `if norm > 0: vector = [x / norm for x in vector]`. -/
def normalizeVec {F : Type} [LinearOrderedField F] (sq : F → F) (v : List F) : List F :=
  if 0 < normOf sq v then v.map (fun x => x / normOf sq v) else v

/-- Pad with zeros to `dim` (`vector.extend([0.0] * ...)`) or truncate
(`vector[:dim]`). -/
def padTruncate {F : Type} [LinearOrderedField F] (dim : Nat) (v : List F) : List F :=
  if v.length < dim then v ++ List.replicate (dim - v.length) 0 else v.take dim

/-- Normalise then fit to the fixed dimension, as the per-text tail of
`_embed_semantic_fallback`. -/
def normalizePad {F : Type} [LinearOrderedField F] (sq : F → F) (dim : Nat) (v : List F) :
    List F :=
  padTruncate dim (normalizeVec sq v)

/-- `Embedder._embed_semantic_fallback`: build the batch vocabulary from
all input texts (`vocab_size = max(len(keyword_list), 100)`), then map each
text to its normalised, 1536-dimensional feature vector (`self.dim = 1536`). -/
def semanticFallback {F : Type} [LinearOrderedField F] (sq : F → F) (texts : List String) :
    List (List F) :=
  let kwList := vocabOf texts
  let vocabSize := max kwList.length 100
  texts.map (fun t => normalizePad sq 1536 (rawVec kwList vocabSize t))

/-- The provider mode fixed in `Embedder.__init__` (after its fallback
cascade, `"hf"` implies a loaded model). -/
inductive EmbedMode
  | openai
  | hf
  | semantic_fallback
deriving DecidableEq

/-- `Embedder._embed_hf_fallback`: try the HF model, fall back to the
deterministic semantic fallback when it is unavailable or raises. -/
def embedHfFallback {F : Type} [LinearOrderedField F]
    (hfP : List String → Option (List (List F))) (sq : F → F) (texts : List String) :
    List (List F) :=
  match hfP texts with
  | some vs => vs
  | none => semanticFallback sq texts

/-- `Embedder._embed_openai`: on a batch whose retries are exhausted the
whole input list is re-embedded through `_embed_hf_fallback`. -/
def embedOpenai {F : Type} [LinearOrderedField F]
    (openaiP hfP : List String → Option (List (List F))) (sq : F → F)
    (texts : List String) : List (List F) :=
  match openaiP texts with
  | some vs => vs
  | none => embedHfFallback hfP sq texts

/-- `Embedder.embed`.  In `hf` mode the source calls `model.encode` with no
exception handling, so a raising provider propagates: that is the
`Except.error` case. -/
def Embedder.embed {F : Type} [LinearOrderedField F] (mode : EmbedMode)
    (openaiP hfP : List String → Option (List (List F))) (sq : F → F)
    (texts : List String) : Except Unit (List (List F)) :=
  match mode with
  | EmbedMode.openai => Except.ok (embedOpenai openaiP hfP sq texts)
  | EmbedMode.hf =>
      match hfP texts with
      | some vs => Except.ok vs
      | none => Except.error ()
  | EmbedMode.semantic_fallback => Except.ok (semanticFallback sq texts)

theorem length_padTruncate {F : Type} [LinearOrderedField F] (dim : Nat) (v : List F) :
    (padTruncate dim v).length = dim := by
  unfold padTruncate
  split
  · rename_i h
    rw [List.length_append, List.length_replicate]
    omega
  · rename_i h
    rw [List.length_take]
    omega

theorem length_semanticFallback {F : Type} [LinearOrderedField F] (sq : F → F)
    (texts : List String) : (semanticFallback sq texts).length = texts.length := by
  simp [semanticFallback]

theorem mem_semanticFallback_length {F : Type} [LinearOrderedField F] (sq : F → F)
    (texts : List String) (v : List F) (hv : v ∈ semanticFallback sq texts) :
    v.length = 1536 := by
  simp only [semanticFallback, List.mem_map] at hv
  obtain ⟨t, _, rfl⟩ := hv
  exact length_padTruncate 1536 _

/-- Claim C3: when every network-based provider fails (OpenAI retries
exhausted, HF unavailable or raising) so that the deterministic semantic
fallback is used — and likewise when the constructor already selected the
fallback mode — `embed` on a non-empty input returns exactly one vector per
text, each of the fixed dimension 1536. -/
theorem embed_fallback_complete {F : Type} [LinearOrderedField F] (sq : F → F)
    (openaiP hfP : List String → Option (List (List F))) (texts : List String)
    (hne : texts ≠ []) (ho : openaiP texts = none) (hh : hfP texts = none) :
    (∃ vs, Embedder.embed EmbedMode.openai openaiP hfP sq texts = Except.ok vs ∧
      vs.length = texts.length ∧ ∀ v ∈ vs, v.length = 1536) ∧
    (∃ vs, Embedder.embed EmbedMode.semantic_fallback openaiP hfP sq texts = Except.ok vs ∧
      vs.length = texts.length ∧ ∀ v ∈ vs, v.length = 1536) := by
  constructor
  · refine ⟨semanticFallback sq texts, ?_, length_semanticFallback sq texts,
      fun v hv => mem_semanticFallback_length sq texts v hv⟩
    simp [Embedder.embed, embedOpenai, embedHfFallback, ho, hh]
  · exact ⟨semanticFallback sq texts, rfl, length_semanticFallback sq texts,
      fun v hv => mem_semanticFallback_length sq texts v hv⟩

/-- Witness for C3 at a concrete input: both failing providers, the one-text
batch `["패널"]`, over `ℚ` with a trivial square root. -/
theorem embed_fallback_complete_witness :
    (∃ vs, Embedder.embed (F := ℚ) EmbedMode.openai (fun _ => none) (fun _ => none)
        (fun _ => 1) ["패널"] = Except.ok vs ∧
      vs.length = ["패널"].length ∧ ∀ v ∈ vs, v.length = 1536) ∧
    (∃ vs, Embedder.embed (F := ℚ) EmbedMode.semantic_fallback (fun _ => none) (fun _ => none)
        (fun _ => 1) ["패널"] = Except.ok vs ∧
      vs.length = ["패널"].length ∧ ∀ v ∈ vs, v.length = 1536) :=
  embed_fallback_complete (fun _ => 1) (fun _ => none) (fun _ => none) ["패널"]
    (by simp) rfl rfl

/-- Claim C4 (amended): only the deterministic fallback pads or truncates to
the fixed dimension 1536; vectors delivered by the OpenAI or HF provider are
returned exactly as the provider produced them, so uniformity of dimension
holds only on the fallback path (or when the provider's native dimension
already equals 1536). -/
theorem embed_provider_dims {F : Type} [LinearOrderedField F]
    (openaiP hfP : List String → Option (List (List F))) (sq : F → F)
    (texts : List String) (vs : List (List F)) :
    (hfP texts = some vs →
      Embedder.embed EmbedMode.hf openaiP hfP sq texts = Except.ok vs) ∧
    (openaiP texts = some vs →
      Embedder.embed EmbedMode.openai openaiP hfP sq texts = Except.ok vs) ∧
    (∀ v ∈ semanticFallback sq texts, v.length = 1536) := by
  refine ⟨?_, ?_, fun v hv => mem_semanticFallback_length sq texts v hv⟩
  · intro h
    simp [Embedder.embed, h]
  · intro h
    simp [Embedder.embed, embedOpenai, h]

/-- Claim C4 counterexample: with the HF provider delivering its native
768-dimensional vector (e.g. `jhgan/ko-sroberta-multitask`), `embed` in HF
mode returns a vector whose dimension is 768, not the fixed 1536 — no
padding or truncation happens outside the fallback. -/
theorem embed_hf_dim_cex :
    ∃ vs, Embedder.embed (F := ℚ) EmbedMode.hf (fun _ => none)
        (fun _ => some [List.replicate 768 0]) (fun _ => 1) ["패널 질문"] = Except.ok vs ∧
      ∃ v ∈ vs, v.length ≠ 1536 := by
  refine ⟨[List.replicate 768 0], rfl, List.replicate 768 0, ?_, ?_⟩
  · exact List.mem_singleton.mpr rfl
  · rw [List.length_replicate]
    omega

theorem headD_padTruncate {F : Type} [LinearOrderedField F] (dim : Nat) (hdim : 0 < dim)
    (a : F) (l : List F) : (padTruncate dim (a :: l)).headD 0 = a := by
  unfold padTruncate
  split
  · simp
  · cases dim with
    | zero => omega
    | succ d => simp [List.take_succ_cons]

theorem headD_normalizePad {F : Type} [LinearOrderedField F] (sq : F → F) (dim : Nat)
    (hdim : 0 < dim) (a : F) (l : List F) :
    (normalizePad sq dim (a :: l)).headD 0 =
      if 0 < normOf sq (a :: l) then a / normOf sq (a :: l) else a := by
  unfold normalizePad normalizeVec
  split
  · rw [List.map_cons, headD_padTruncate dim hdim]
  · rw [headD_padTruncate dim hdim]

/-- Claim C10: in deterministic-fallback mode the embedding of a text is not
a function of that text alone.  The fallback builds its sorted keyword
vocabulary from the whole batch, so the texts `t = "ab"`, `u = "aa"` have
`embed([t])` giving `t` a vector different from the one `embed([t, u])`
gives it (the extra keyword `"aa"` shifts every vocabulary position): a
query embedded alone and a document embedded inside an ingest batch go
through different feature bases.  This holds for every square-root model. -/
theorem semanticFallback_batch_dependent {F : Type} [LinearOrderedField F] (sq : F → F) :
    ∃ t u : String,
      (semanticFallback sq [t]).headD [] ≠ (semanticFallback sq [t, u]).headD [] := by
  refine ⟨"ab", "aa", ?_⟩
  intro hEq
  have h1 : (semanticFallback sq ["ab"]).headD [] =
      normalizePad sq 1536 (rawVec (F := F) ["ab"] 100 "ab") := rfl
  have h2 : (semanticFallback sq ["ab", "aa"]).headD [] =
      normalizePad sq 1536 (rawVec (F := F) ["aa", "ab"] 100 "ab") := rfl
  have hc1 : rawVec (F := F) ["ab"] 100 "ab" =
      (((extractKeywords "ab").count "ab" : ℕ) : F) * (1 / 10) ::
        (rawVec (F := F) ["ab"] 100 "ab").tail := rfl
  have hc2 : rawVec (F := F) ["aa", "ab"] 100 "ab" =
      (0 : F) :: (rawVec (F := F) ["aa", "ab"] 100 "ab").tail := rfl
  have hcount : (extractKeywords "ab").count "ab" = 1 := rfl
  have e1 : (normalizePad sq 1536 (rawVec (F := F) ["ab"] 100 "ab")).headD 0 ≠ 0 := by
    rw [hc1, headD_normalizePad sq 1536 (by norm_num), hcount]
    split
    · rename_i h
      exact div_ne_zero (by norm_num) (ne_of_gt h)
    · norm_num
  have e2 : (normalizePad sq 1536 (rawVec (F := F) ["aa", "ab"] 100 "ab")).headD 0 = 0 := by
    rw [hc2, headD_normalizePad sq 1536 (by norm_num)]
    split
    · rw [zero_div]
    · rfl
  rw [h1, h2] at hEq
  apply e1
  rw [hEq, e2]

/-! ## Answer generator (`app/services/llm.py`) -/

/-- The labelled no-context fallback string of `ask_llm`. -/
def llmFallbackNoCtx : String := "(LLM 미연결) 컨텍스트가 부족합니다. 관리자 확인 필요."

/-- The label prefixed to the top-snippet fallback of `ask_llm`. -/
def llmFallbackLabel : String := "(LLM 미연결) 컨텍스트 기반 요약: "

/-- Python slicing `s[:n]`: the first `n` characters (code points). -/
def strTake (s : String) (n : Nat) : String := String.mk (s.toList.take n)

/-- `llm.ask_llm`.  `clientOk` is `_openai_ok and settings.OPENAI_API_KEY`;
when it holds the chat completion (an external call) is the oracle's
answer; otherwise the labelled fallback is built from
`retrieved[0]["content"][:400]`, identically for draft and final mode. -/
def askLlm (clientOk : Bool) (oracle : String → List Hit → Bool → String)
    (question : String) (retrieved : List Hit) (draft : Bool) : String :=
  if clientOk then oracle question retrieved draft
  else
    match retrieved with
    | [] => llmFallbackNoCtx
    | h :: _ => llmFallbackLabel ++ strTake h.content 400

/-- Claim C8 (amended): when the language-model provider is unavailable or
misconfigured, `ask_llm` does not raise (it is a total function of its
inputs) and returns the clearly-labelled fallback built from the top
retrieved snippet — in final mode and in draft mode alike; the draft-mode
result is the same labelled string, not `None` (a `None` draft arises only
in `rag.query`, which catches a raising `ask_llm`). -/
theorem askLlm_fallback_spec (oracle : String → List Hit → Bool → String)
    (question : String) (retrieved : List Hit) (draft : Bool) :
    (askLlm false oracle question retrieved draft =
      match retrieved with
      | [] => llmFallbackNoCtx
      | h :: _ => llmFallbackLabel ++ strTake h.content 400) ∧
    askLlm false oracle question retrieved true =
      askLlm false oracle question retrieved false := by
  constructor
  · cases retrieved with
    | nil => rfl
    | cons h rest => rfl
  · cases retrieved with
    | nil => rfl
    | cons h rest => rfl

/-- Claim C8 counterexample: provider unavailable, one retrieved hit, DRAFT
mode — `ask_llm` returns the non-empty labelled fallback string built from
the snippet, not `None`/omitted as the claim states. -/
theorem askLlm_draft_not_null :
    askLlm false (fun _ _ _ => "") "질문" [{ content := "컨텍스트", metadata := [], distance := 0 }]
        true = llmFallbackLabel ++ "컨텍스트" ∧
    (llmFallbackLabel ++ "컨텍스트").isEmpty = false :=
  ⟨rfl, rfl⟩

/-! ## Vector index validation (`app/vector/chroma_store.py`) -/

/-- The per-document metadata map Chroma stores. -/
abbrev Metadata := List (String × String)

/-- The arguments `add_docs` hands to `collection.add` on success. -/
structure AddCall where
  ids : List String
  embeddings : List (List ℚ)
  documents : List String
  metadatas : List Metadata
deriving DecidableEq

/-- The ids used by `add_docs`: the given ones, or (`if not ids`, i.e. on
`None` and on `[]`) one generated uuid per content. -/
def finalIds (uuidGen : Nat → String) (contents : List String)
    (ids : Option (List String)) : List String :=
  match ids with
  | none => (List.range contents.length).map uuidGen
  | some l => if l.isEmpty then (List.range contents.length).map uuidGen else l

/-- `metadatas or [{} for _ in contents]`. -/
def finalMetas (contents : List String) (metadatas : Option (List Metadata)) : List Metadata :=
  match metadatas with
  | none => List.replicate contents.length []
  | some ms => if ms.isEmpty then List.replicate contents.length [] else ms

/-- `ChromaStore.add_docs`: validation (empty contents, embedding/metadata
length mismatches raise `ValueError` before anything is sent to the
collection), uuid generation, and the final `collection.add` payload.  The
uuid source `uuid.uuid4()` is the oracle `uuidGen`, one fresh draw per
index. -/
def addDocs (uuidGen : Nat → String) (contents : List String)
    (metadatas : Option (List Metadata)) (embeddings : Option (List (List ℚ)))
    (ids : Option (List String)) : Except String AddCall :=
  if contents.isEmpty then Except.error "contents is empty"
  else
    match embeddings with
    | none => Except.error "embeddings length mismatch"
    | some es =>
      if es.length ≠ contents.length then Except.error "embeddings length mismatch"
      else
        match metadatas with
        | some ms =>
          if ms.length ≠ contents.length then Except.error "metadatas length mismatch"
          else Except.ok
            { ids := finalIds uuidGen contents ids
              embeddings := es
              documents := contents
              metadatas := finalMetas contents metadatas }
        | none => Except.ok
            { ids := finalIds uuidGen contents ids
              embeddings := es
              documents := contents
              metadatas := finalMetas contents metadatas }

/-- Claim C9: `add_docs` fails with a validation error — and sends nothing
to the collection — whenever the contents list is empty, the embeddings are
missing or of mismatched length, or provided metadatas have mismatched
length; on success the payload carries exactly the given documents and
embeddings, and when ids are not supplied (absent or empty) it carries one
generated uuid per content, which are pairwise distinct whenever the uuid
generator never repeats. -/
theorem addDocs_spec (uuidGen : Nat → String) (contents : List String)
    (metadatas : Option (List Metadata)) (embeddings : Option (List (List ℚ)))
    (ids : Option (List String)) :
    (contents = [] → addDocs uuidGen contents metadatas embeddings ids =
      Except.error "contents is empty") ∧
    (embeddings = none → ∃ m, addDocs uuidGen contents metadatas embeddings ids =
      Except.error m) ∧
    (∀ es, embeddings = some es → es.length ≠ contents.length →
      ∃ m, addDocs uuidGen contents metadatas embeddings ids = Except.error m) ∧
    (∀ ms, metadatas = some ms → ms.length ≠ contents.length →
      ∃ m, addDocs uuidGen contents metadatas embeddings ids = Except.error m) ∧
    (∀ call, addDocs uuidGen contents metadatas embeddings ids = Except.ok call →
      call.documents = contents ∧
      (∃ es, embeddings = some es ∧ es.length = contents.length ∧ call.embeddings = es) ∧
      ((ids = none ∨ ids = some []) →
        call.ids = (List.range contents.length).map uuidGen ∧
        call.ids.length = contents.length)) ∧
    (Function.Injective uuidGen → ((List.range contents.length).map uuidGen).Nodup) := by
  refine ⟨?_, ?_, ?_, ?_, ?_, ?_⟩
  · rintro rfl
    rfl
  · rintro rfl
    by_cases hc : contents.isEmpty = true
    · exact ⟨"contents is empty", by simp [addDocs, hc]⟩
    · exact ⟨"embeddings length mismatch", by simp [addDocs, hc]⟩
  · rintro es rfl hlen
    by_cases hc : contents.isEmpty = true
    · exact ⟨"contents is empty", by simp [addDocs, hc]⟩
    · exact ⟨"embeddings length mismatch", by simp [addDocs, hc, hlen]⟩
  · rintro ms rfl hlen
    by_cases hc : contents.isEmpty = true
    · exact ⟨"contents is empty", by simp [addDocs, hc]⟩
    · cases embeddings with
      | none => exact ⟨"embeddings length mismatch", by simp [addDocs, hc]⟩
      | some es =>
          by_cases he : es.length = contents.length
          · exact ⟨"metadatas length mismatch", by simp [addDocs, hc, he, hlen]⟩
          · exact ⟨"embeddings length mismatch", by simp [addDocs, hc, he]⟩
  · intro call hcall
    unfold addDocs at hcall
    split at hcall
    · cases hcall
    · split at hcall
      · cases hcall
      · rename_i es
        split at hcall
        · cases hcall
        · rename_i hlen
          have he : es.length = contents.length := not_not.mp hlen
          have hfin : call.ids = finalIds uuidGen contents ids ∧
              call.documents = contents ∧ call.embeddings = es := by
            split at hcall
            · split at hcall
              · cases hcall
              · injection hcall with h
                subst h
                exact ⟨rfl, rfl, rfl⟩
            · injection hcall with h
              subst h
              exact ⟨rfl, rfl, rfl⟩
          obtain ⟨hids, hdocs, hemb⟩ := hfin
          refine ⟨hdocs, ⟨es, rfl, he, hemb⟩, ?_⟩
          intro hid
          have hgen : finalIds uuidGen contents ids =
              (List.range contents.length).map uuidGen := by
            rcases hid with rfl | rfl
            · rfl
            · rfl
          rw [hids, hgen]
          exact ⟨rfl, by simp⟩
  · intro hinj
    exact (List.nodup_range _).map hinj

/-! ## Moderation feedback loop (claim C2)

The loop couples the conversation log with the vector index.  The pieces
present in the source are embedded from it: `feedback.add_feedback_qa`
(curated insert), the log mutators above, and the ask path of `rag.query`.
The approve/reject orchestration itself is not part of the repository
snapshot (only its collaborators are), so it is modelled from the spec,
sections 4.6, 3 and 7(c); its definitions say so in their doc comments. -/

/-- A document of the vector index as `add_feedback_qa` inserts it:
`"Q: {question}\nA: {answer}"` content plus the metadata map and embedding
vector passed to `ChromaStore.add_docs`. -/
structure Doc where
  content : String
  source : String
  category : String
  tags : String
  timestamp : String
  embedding : List ℚ
deriving DecidableEq

/-- The curated content format `f"Q: {question}\nA: {answer}"`. -/
def mkQA (question answer : String) : String := "Q: " ++ question ++ "\nA: " ++ answer

/-- `feedback.add_feedback_qa`: append one curated document; `source or
"admin"` and `category or "기타"` truthiness, `";".join(tags)`.  The
embedding vector (`embedder.embed([doc])[0]`, an external provider result)
is the parameter `vec`. -/
def addFeedbackQa (question answer category source : String) (tags : List String)
    (vec : List ℚ) (timestamp : String) (index : List Doc) : List Doc :=
  index ++
    [{ content := mkQA question answer
       source := if source.isEmpty then "admin" else source
       category := if category.isEmpty then "기타" else category
       tags := String.intercalate ";" tags
       timestamp := timestamp
       embedding := vec }]

/-- The combined state of the two stores the loop touches. -/
structure SysState where
  log : List LogEntry
  index : List Doc

/-- The escalation notice `rag.query` stores as the public answer of an
escalated question. -/
def escalateMsg : String :=
  "관련 문서가 부족하거나 도메인과 무관하여 게시판 이관이 필요합니다. 관리자 답변 후 지식베이스에 반영됩니다."

/-- The answer `rag.query` persists when the pipeline fails after the log
entry was allocated. -/
def sysErrMsg : String := "(시스템 오류) 관리자 확인 필요"

/-- `override_answer or draft_answer` used by approve: the override when
supplied, else the entry's draft. -/
def orDraft (override draft : Option String) : Option String :=
  match override with
  | some a => some a
  | none => draft

/-- The successful ask path of `rag.query` as it affects the two stores:
gate, `insert_log` (with `draft_answer=None`), then either
`update_answer(llm final)` on `ANSWERABLE` or `set_draft(draft)` followed by
`update_answer(escalation notice)`.  `llmFinal`/`llmDraft` are the
`ask_llm` oracle results (`none` models the caught draft exception).  The
vector index is never touched. -/
def askStep (s : SysState) (st : GateSettings) (q : String) (hits : List Hit)
    (llmFinal : String) (llmDraft : Option String) (t1 t2 : String) : SysState :=
  let g := gate st q hits
  let p := insertLog q g.status g.conf g.topd none hits t1 none s.log
  if g.status == "ANSWERABLE" then
    { log := updateAnswer p.1 llmFinal t2 p.2, index := s.index }
  else
    { log := updateAnswer p.1 escalateMsg t2 (setDraft p.1 llmDraft p.2), index := s.index }

/-- The except-branch of `rag.query` when the failure happens after
`insert_log`: the entry's answer becomes the system-error notice. -/
def askErrorStep (s : SysState) (st : GateSettings) (q : String) (hits : List Hit)
    (t1 t2 : String) : SysState :=
  let g := gate st q hits
  let p := insertLog q g.status g.conf g.topd none hits t1 none s.log
  { log := updateAnswer p.1 sysErrMsg t2 p.2, index := s.index }

/-- Modelled from the spec: the `approve` moderation operation is absent
from the source snapshot (only `add_feedback_qa` and the log mutators it
calls exist).  Spec 4.6: fail ("nothing to approve"/not-found, spec 7(c))
when the id is unknown or neither an override nor a draft answer exists;
otherwise write the final answer and timestamp to the log, set
`approval_status = APPROVED`, and insert one curated document with
`source = "admin_approved"`.  Spec 3 (lifecycle): the `PENDING → APPROVED`
transition is the only one, so a non-`PENDING` entry is not re-approved. -/
def approveStep (s : SysState) (lid : Int) (override : Option String) (category : String)
    (tags : List String) (vec : List ℚ) (t : String) : SysState :=
  match s.log.find? (fun e => e.id == lid) with
  | none => s
  | some e =>
      if e.approval_status == "PENDING" then
        match orDraft override e.draft_answer with
        | none => s
        | some final =>
            { log := setApproval lid "APPROVED" (updateAnswer lid final t s.log)
              index := addFeedbackQa e.question final category "admin_approved" tags vec t s.index }
      else s

/-- Modelled from the spec: the `reject` moderation operation (spec 4.6,
3, 7(c)): on a known `PENDING` entry, always set
`approval_status = REJECTED`; when an override answer is supplied, also
write it to the log and insert one curated document with
`source = "admin_written"`; with no override the answer field is left
untouched and nothing is inserted. -/
def rejectStep (s : SysState) (lid : Int) (override : Option String) (category : String)
    (tags : List String) (vec : List ℚ) (t : String) : SysState :=
  match s.log.find? (fun e => e.id == lid) with
  | none => s
  | some e =>
      if e.approval_status == "PENDING" then
        match override with
        | some a =>
            { log := setApproval lid "REJECTED" (updateAnswer lid a t s.log)
              index := addFeedbackQa e.question a category "admin_written" tags vec t s.index }
        | none => { log := setApproval lid "REJECTED" s.log, index := s.index }
      else s

/-- The events that touch the log and the index. -/
inductive Event
  | ask (st : GateSettings) (q : String) (hits : List Hit) (llmFinal : String)
      (llmDraft : Option String) (t1 t2 : String)
  | askError (st : GateSettings) (q : String) (hits : List Hit) (t1 t2 : String)
  | approve (lid : Int) (override : Option String) (category : String)
      (tags : List String) (vec : List ℚ) (t : String)
  | reject (lid : Int) (override : Option String) (category : String)
      (tags : List String) (vec : List ℚ) (t : String)

/-- One event applied to the state. -/
def step (s : SysState) : Event → SysState
  | Event.ask st q hits llmFinal llmDraft t1 t2 => askStep s st q hits llmFinal llmDraft t1 t2
  | Event.askError st q hits t1 t2 => askErrorStep s st q hits t1 t2
  | Event.approve lid override category tags vec t =>
      approveStep s lid override category tags vec t
  | Event.reject lid override category tags vec t =>
      rejectStep s lid override category tags vec t

/-- A run of the system from the empty log and empty index. -/
def run (es : List Event) : SysState := es.foldl step { log := [], index := [] }

theorem updateFirst_split (p : LogEntry → Bool) (f : LogEntry → LogEntry)
    (l1 : List LogEntry) (e : LogEntry) (l2 : List LogEntry)
    (hl : ∀ x ∈ l1, p x = false) (he : p e = true) :
    updateFirst p f (l1 ++ e :: l2) = l1 ++ f e :: l2 := by
  induction l1 with
  | nil => simp [updateFirst, he]
  | cons x xs ih =>
      have hx : p x = false := hl x (List.mem_cons_self x xs)
      simp only [List.cons_append, updateFirst, hx, Bool.false_eq_true, if_false,
        List.append_eq]
      rw [ih (fun y hy => hl y (List.mem_cons_of_mem x hy))]

theorem updateFirst_fresh (p : LogEntry → Bool) (f : LogEntry → LogEntry)
    (l : List LogEntry) (e : LogEntry) (hl : ∀ x ∈ l, p x = false) (he : p e = true) :
    updateFirst p f (l ++ [e]) = l ++ [f e] :=
  updateFirst_split p f l e [] hl he

theorem find?_split (p : LogEntry → Bool) (l : List LogEntry) (e : LogEntry)
    (h : l.find? p = some e) :
    ∃ l1 l2, l = l1 ++ e :: l2 ∧ ∀ x ∈ l1, p x = false := by
  induction l with
  | nil => cases h
  | cons x xs ih =>
      by_cases hp : p x = true
      · rw [List.find?_cons_of_pos _ hp] at h
        injection h with hxe
        exact ⟨[], xs, by rw [hxe]; rfl, by intro y hy; cases hy⟩
      · have hp' : p x = false := by simpa using hp
        rw [List.find?_cons_of_neg _ (by simp [hp'])] at h
        obtain ⟨l1, l2, rfl, hl1⟩ := ih h
        refine ⟨x :: l1, l2, rfl, ?_⟩
        intro y hy
        rcases List.mem_cons.mp hy with rfl | hy
        · exact hp'
        · exact hl1 y hy

/-- The loop invariant: log ids are pairwise distinct, and every document
of the index is curated and witnessed by a settled (approved or rejected)
log entry whose question and written answer form the document content. -/
def LoopInv (s : SysState) : Prop :=
  (s.log.map (fun e => e.id)).Nodup ∧
  ∀ d ∈ s.index,
    (d.source = "admin_approved" ∨ d.source = "admin_written") ∧
    ∃ e ∈ s.log, ∃ a : String,
      (e.approval_status = "APPROVED" ∨ e.approval_status = "REJECTED") ∧
      e.answer = some a ∧ d.content = mkQA e.question a

theorem beq_id_false_of_mem (l : List LogEntry) (x : LogEntry) (hx : x ∈ l) :
    (x.id == nextId l) = false :=
  beq_eq_false_iff_ne.mpr (ne_of_lt (id_lt_nextId l x hx))

theorem loopInv_extend (s : SysState) (hInv : LoopInv s) (e' : LogEntry)
    (hid : e'.id = nextId s.log) : LoopInv { log := s.log ++ [e'], index := s.index } := by
  obtain ⟨hnd, hio⟩ := hInv
  constructor
  · rw [List.map_append, List.nodup_append]
    refine ⟨hnd, List.nodup_singleton _, ?_⟩
    intro x hx hy
    simp only [List.map_cons, List.map_nil, List.mem_singleton] at hy
    subst hy
    obtain ⟨y, hy, hyx⟩ := List.mem_map.mp hx
    have := id_lt_nextId s.log y hy
    rw [hyx, hid] at this
    exact lt_irrefl _ this
  · intro d hd
    obtain ⟨hsrc, e, he, a, hst, hans, hcont⟩ := hio d hd
    exact ⟨hsrc, e, List.mem_append_left _ he, a, hst, hans, hcont⟩

theorem loopInv_askStep (s : SysState) (hInv : LoopInv s) (st : GateSettings) (q : String)
    (hits : List Hit) (lf : String) (ld : Option String) (t1 t2 : String) :
    LoopInv (askStep s st q hits lf ld t1 t2) := by
  have hl : ∀ x ∈ s.log, ((fun e => e.id == nextId s.log) x) = false :=
    fun x hx => beq_id_false_of_mem s.log x hx
  simp only [askStep, insertLog]
  split
  · rw [updateAnswer, updateFirst_fresh _ _ _ _ hl (by simp)]
    exact loopInv_extend s hInv _ rfl
  · rw [setDraft, updateFirst_fresh _ _ _ _ hl (by simp),
      updateAnswer, updateFirst_fresh _ _ _ _ hl (by simp)]
    exact loopInv_extend s hInv _ rfl

theorem loopInv_askErrorStep (s : SysState) (hInv : LoopInv s) (st : GateSettings) (q : String)
    (hits : List Hit) (t1 t2 : String) :
    LoopInv (askErrorStep s st q hits t1 t2) := by
  have hl : ∀ x ∈ s.log, ((fun e => e.id == nextId s.log) x) = false :=
    fun x hx => beq_id_false_of_mem s.log x hx
  simp only [askErrorStep, insertLog]
  rw [updateAnswer, updateFirst_fresh _ _ _ _ hl (by simp)]
  exact loopInv_extend s hInv _ rfl

/-- The entry after `update_answer`. -/
def withAnswer (e : LogEntry) (a t : String) : LogEntry :=
  { e with answer := some a, answered_at := some t }

/-- The entry after `set_approval`. -/
def withStatus (e : LogEntry) (st : String) : LogEntry :=
  { e with approval_status := st }

theorem ids_updateFirst (p : LogEntry → Bool) (f : LogEntry → LogEntry)
    (hf : ∀ x, (f x).id = x.id) : ∀ l : List LogEntry,
    (updateFirst p f l).map (fun e => e.id) = l.map (fun e => e.id)
  | [] => rfl
  | x :: xs => by
      simp only [updateFirst]
      split
      · simp [hf]
      · simp only [List.map_cons]
        rw [ids_updateFirst p f hf xs]

theorem ids_setApproval (lid : Int) (st : String) (l : List LogEntry) :
    (setApproval lid st l).map (fun e => e.id) = l.map (fun e => e.id) := by
  unfold setApproval
  exact ids_updateFirst (fun e => e.id == lid)
    (fun e => { e with approval_status := st }) (fun _ => rfl) l

theorem ids_updateAnswer (lid : Int) (a t : String) (l : List LogEntry) :
    (updateAnswer lid a t l).map (fun e => e.id) = l.map (fun e => e.id) := by
  unfold updateAnswer
  exact ids_updateFirst (fun e => e.id == lid)
    (fun e => { e with answer := some a, answered_at := some t }) (fun _ => rfl) l

theorem loopInv_approveStep (s : SysState) (hInv : LoopInv s) (lid : Int)
    (ov : Option String) (c : String) (tg : List String) (v : List ℚ) (t : String) :
    LoopInv (approveStep s lid ov c tg v t) := by
  unfold approveStep
  split
  · exact hInv
  · rename_i e hsome
    split
    · rename_i hP
      split
      · exact hInv
      · rename_i final hod
        have hpe : (e.id == lid) = true := List.find?_some (p := fun x : LogEntry => x.id == lid) hsome
        obtain ⟨l1, l2, hsplit, hl1⟩ := find?_split _ _ _ hsome
        have h1 : updateAnswer lid final t s.log = l1 ++ withAnswer e final t :: l2 := by
          rw [hsplit, updateAnswer, updateFirst_split _ _ l1 e l2 hl1 hpe]
          rfl
        have h2 : setApproval lid "APPROVED" (l1 ++ withAnswer e final t :: l2) =
            l1 ++ withStatus (withAnswer e final t) "APPROVED" :: l2 := by
          rw [setApproval, updateFirst_split _ _ l1 (withAnswer e final t) l2 hl1 hpe]
          rfl
        constructor
        · rw [ids_setApproval, ids_updateAnswer]
          exact hInv.1
        · intro d hd
          simp only [addFeedbackQa] at hd
          rcases List.mem_append.mp hd with hd | hd
          · obtain ⟨hsrc, e', he', a, hst, hans, hcont⟩ := hInv.2 d hd
            refine ⟨hsrc, e', ?_, a, hst, hans, hcont⟩
            rw [h1, h2]
            rw [hsplit] at he'
            rcases List.mem_append.mp he' with h' | h'
            · exact List.mem_append_left _ h'
            · rcases List.mem_cons.mp h' with rfl | h'
              · exfalso
                have hP' : e'.approval_status = "PENDING" := beq_iff_eq.mp hP
                rcases hst with h | h <;> rw [h] at hP' <;> exact absurd hP' (by decide)
              · exact List.mem_append_right _ (List.mem_cons_of_mem _ h')
          · rw [List.mem_singleton.mp hd]
            refine ⟨Or.inl rfl, withStatus (withAnswer e final t) "APPROVED", ?_,
              final, Or.inl rfl, rfl, rfl⟩
            rw [h1, h2]
            exact List.mem_append_right _ (List.mem_cons_self _ _)
    · exact hInv

theorem loopInv_rejectStep (s : SysState) (hInv : LoopInv s) (lid : Int)
    (ov : Option String) (c : String) (tg : List String) (v : List ℚ) (t : String) :
    LoopInv (rejectStep s lid ov c tg v t) := by
  unfold rejectStep
  split
  · exact hInv
  · rename_i e hsome
    split
    · rename_i hP
      have hpe : (e.id == lid) = true := List.find?_some (p := fun x : LogEntry => x.id == lid) hsome
      obtain ⟨l1, l2, hsplit, hl1⟩ := find?_split _ _ _ hsome
      split
      · rename_i a
        have h1 : updateAnswer lid a t s.log = l1 ++ withAnswer e a t :: l2 := by
          rw [hsplit, updateAnswer, updateFirst_split _ _ l1 e l2 hl1 hpe]
          rfl
        have h2 : setApproval lid "REJECTED" (l1 ++ withAnswer e a t :: l2) =
            l1 ++ withStatus (withAnswer e a t) "REJECTED" :: l2 := by
          rw [setApproval, updateFirst_split _ _ l1 (withAnswer e a t) l2 hl1 hpe]
          rfl
        constructor
        · rw [ids_setApproval, ids_updateAnswer]
          exact hInv.1
        · intro d hd
          simp only [addFeedbackQa] at hd
          rcases List.mem_append.mp hd with hd | hd
          · obtain ⟨hsrc, e', he', a2, hst, hans, hcont⟩ := hInv.2 d hd
            refine ⟨hsrc, e', ?_, a2, hst, hans, hcont⟩
            rw [h1, h2]
            rw [hsplit] at he'
            rcases List.mem_append.mp he' with h' | h'
            · exact List.mem_append_left _ h'
            · rcases List.mem_cons.mp h' with rfl | h'
              · exfalso
                have hP' : e'.approval_status = "PENDING" := beq_iff_eq.mp hP
                rcases hst with h | h <;> rw [h] at hP' <;> exact absurd hP' (by decide)
              · exact List.mem_append_right _ (List.mem_cons_of_mem _ h')
          · rw [List.mem_singleton.mp hd]
            refine ⟨Or.inr rfl, withStatus (withAnswer e a t) "REJECTED", ?_,
              a, Or.inr rfl, rfl, rfl⟩
            rw [h1, h2]
            exact List.mem_append_right _ (List.mem_cons_self _ _)
      · have h2 : setApproval lid "REJECTED" s.log =
            l1 ++ withStatus e "REJECTED" :: l2 := by
          rw [hsplit, setApproval, updateFirst_split _ _ l1 e l2 hl1 hpe]
          rfl
        constructor
        · rw [ids_setApproval]
          exact hInv.1
        · intro d hd
          obtain ⟨hsrc, e', he', a2, hst, hans, hcont⟩ := hInv.2 d hd
          refine ⟨hsrc, e', ?_, a2, hst, hans, hcont⟩
          rw [h2]
          rw [hsplit] at he'
          rcases List.mem_append.mp he' with h' | h'
          · exact List.mem_append_left _ h'
          · rcases List.mem_cons.mp h' with rfl | h'
            · exfalso
              have hP' : e'.approval_status = "PENDING" := beq_iff_eq.mp hP
              rcases hst with h | h <;> rw [h] at hP' <;> exact absurd hP' (by decide)
            · exact List.mem_append_right _ (List.mem_cons_of_mem _ h')
    · exact hInv

theorem loopInv_step (s : SysState) (ev : Event) (hInv : LoopInv s) :
    LoopInv (step s ev) := by
  cases ev with
  | ask st q hits lf ld t1 t2 => exact loopInv_askStep s hInv st q hits lf ld t1 t2
  | askError st q hits t1 t2 => exact loopInv_askErrorStep s hInv st q hits t1 t2
  | approve lid ov c tg v t => exact loopInv_approveStep s hInv lid ov c tg v t
  | reject lid ov c tg v t => exact loopInv_rejectStep s hInv lid ov c tg v t

theorem loopInv_run (es : List Event) : LoopInv (run es) := by
  suffices h : ∀ s, LoopInv s → LoopInv (es.foldl step s) by
    exact h { log := [], index := [] } ⟨List.nodup_nil, by intro d hd; cases hd⟩
  induction es with
  | nil => intro s hs; exact hs
  | cons e es ih =>
      intro s hs
      exact ih (step s e) (loopInv_step s e hs)

theorem askStep_index (s : SysState) (st : GateSettings) (q : String) (hits : List Hit)
    (lf : String) (ld : Option String) (t1 t2 : String) :
    (askStep s st q hits lf ld t1 t2).index = s.index := by
  simp only [askStep]
  split <;> rfl

theorem approveStep_inserts (s : SysState) (lid : Int) (ov : Option String) (c : String)
    (tg : List String) (v : List ℚ) (t : String) (e : LogEntry) (final : String)
    (hfind : s.log.find? (fun x => x.id == lid) = some e)
    (hP : e.approval_status = "PENDING")
    (hod : orDraft ov e.draft_answer = some final) :
    (approveStep s lid ov c tg v t).index =
      addFeedbackQa e.question final c "admin_approved" tg v t s.index := by
  unfold approveStep
  split
  · rename_i hnone
    rw [hfind] at hnone
    cases hnone
  · rename_i e' hsome
    rw [hfind] at hsome
    injection hsome with he'
    subst he'
    rw [hP, hod]
    rfl

/-- Claim C2 (curation invariant; the approve/reject glue is modelled from
spec 4.6/3/7(c), the rest from the source): after any run of the feedback
loop, (1) every document of the Vector Index is curated
(`source ∈ {admin_approved, admin_written}`) and is witnessed by a log
entry whose `approval_status` is `APPROVED` or `REJECTED` — in particular
not `PENDING` — whose written answer a human supplied or accepted, and
whose question/answer pair forms the document content; (2) the ask path
(which stores the draft in the log) never inserts into the Vector Index —
the draft alone is never curated; and (3) conversely, an `approve` of a
found `PENDING` entry with an override or draft answer available inserts
exactly the corresponding curated `admin_approved` document. -/
theorem curation_invariant (es : List Event) :
    (∀ d ∈ (run es).index,
      (d.source = "admin_approved" ∨ d.source = "admin_written") ∧
      ∃ e ∈ (run es).log, ∃ a : String,
        (e.approval_status = "APPROVED" ∨ e.approval_status = "REJECTED") ∧
        e.approval_status ≠ "PENDING" ∧
        e.answer = some a ∧ d.content = mkQA e.question a) ∧
    (∀ st q hits lf ld t1 t2,
      (step (run es) (Event.ask st q hits lf ld t1 t2)).index = (run es).index) ∧
    (∀ lid ov c tg v t e final,
      (run es).log.find? (fun x => x.id == lid) = some e →
      e.approval_status = "PENDING" →
      orDraft ov e.draft_answer = some final →
      (step (run es) (Event.approve lid ov c tg v t)).index =
        addFeedbackQa e.question final c "admin_approved" tg v t (run es).index) := by
  refine ⟨?_, ?_, ?_⟩
  · intro d hd
    obtain ⟨hsrc, e, he, a, hst, hans, hcont⟩ := (loopInv_run es).2 d hd
    refine ⟨hsrc, e, he, a, hst, ?_, hans, hcont⟩
    rcases hst with h | h <;> rw [h] <;> decide
  · intro st q hits lf ld t1 t2
    exact askStep_index (run es) st q hits lf ld t1 t2
  · intro lid ov c tg v t e final hfind hP hod
    exact approveStep_inserts (run es) lid ov c tg v t e final hfind hP hod
